import Mathlib

/-!
Shallow embedding of `src/kernel/locking/rwsem.h`: the owner registry
(`rwsem_set_owner`, `rwsem_clear_owner`, `rwsem_set_reader_owned`,
`is_rwsem_owner_spinnable`, `rwsem_has_anonymous_owner`) and the wait-queue
admission function `rwsem_list_add_per_prio`, both in its priority-aware
configuration (CONFIG_RWSEM_PRIO_AWARE) and in its plain-FIFO configuration.
-/

/-- Modelled from the spec: the anonymous-owner tag bit of the owner word.
The constant RWSEM_ANONYMOUSLY_OWNED comes from the external kernel headers
(not part of this repository); it is bit 0 of the owner word. -/
def RWSEM_ANONYMOUSLY_OWNED : Nat := 1

/-- Modelled from the spec: the owner-word value published for anonymous
reader ownership. The external headers define RWSEM_READER_OWNED as the
anonymous tag bit itself, cast to a task pointer. -/
def RWSEM_READER_OWNED : Nat := RWSEM_ANONYMOUSLY_OWNED

/-- The symbolic owner slot of the spec's data model: no holder, an
identifiable holder, or an anonymous reader/owner. -/
inductive OwnerSlot where
  | Free : OwnerSlot
  | Owned : Nat → OwnerSlot
  | AnonymousReaderOrOwner : OwnerSlot
deriving DecidableEq

/-- Encoding of an owner slot as the machine word held in `sem->owner`:
NULL is 0, a `task_struct` pointer is word-aligned (even) and nonzero, and
the anonymous state is the tag bit. -/
def encodeOwner : OwnerSlot → Nat
  | OwnerSlot.Free => 0
  | OwnerSlot.Owned tid => 2 * (tid + 1)
  | OwnerSlot.AnonymousReaderOrOwner => RWSEM_READER_OWNED

/-- `is_rwsem_owner_spinnable` from rwsem.h: true when the anonymous tag bit
of the owner word is clear (`!((unsigned long)owner & RWSEM_ANONYMOUSLY_OWNED)`). -/
def is_rwsem_owner_spinnable (owner : Nat) : Bool :=
  owner &&& RWSEM_ANONYMOUSLY_OWNED == 0

/-- `rwsem_has_anonymous_owner` from rwsem.h: true when the anonymous tag bit
of the owner word is set. -/
def rwsem_has_anonymous_owner (owner : Nat) : Bool :=
  owner &&& RWSEM_ANONYMOUSLY_OWNED != 0

/-- The owner word together with a count of the WRITE_ONCE stores performed
on it, used to state the store-elision property of `rwsem_set_reader_owned`. -/
structure OwnerState where
  owner : Nat
  stores : Nat
deriving DecidableEq

/-- `rwsem_set_owner` from rwsem.h: WRITE_ONCE the current task's pointer
into the owner word. -/
def rwsem_set_owner (tid : Nat) (s : OwnerState) : OwnerState :=
  { owner := encodeOwner (OwnerSlot.Owned tid), stores := s.stores + 1 }

/-- `rwsem_clear_owner` from rwsem.h: WRITE_ONCE NULL into the owner word. -/
def rwsem_clear_owner (s : OwnerState) : OwnerState :=
  { owner := encodeOwner OwnerSlot.Free, stores := s.stores + 1 }

/-- `rwsem_set_reader_owned` from rwsem.h: READ_ONCE the owner word, and
store RWSEM_READER_OWNED only when it does not already hold that value. -/
def rwsem_set_reader_owned (s : OwnerState) : OwnerState :=
  if s.owner ≠ RWSEM_READER_OWNED then
    { owner := RWSEM_READER_OWNED, stores := s.stores + 1 }
  else
    s

/-- A sequence of n successive calls of `rwsem_set_reader_owned`. -/
def iterateSetReaderOwned : Nat → OwnerState → OwnerState
  | 0, s => s
  | n + 1, s => iterateSetReaderOwned n (rwsem_set_reader_owned s)

/-- One queued waiter (`struct rwsem_waiter`): its task's priority
(`task->prio`, lower value = more urgent) and an identity used to track
arrival order; the embedded list node is the position in the list below. -/
structure RwsemWaiter where
  id : Nat
  prio : Int
deriving DecidableEq

/-- The fields of `struct rw_semaphore` this header manipulates: the wait
list and the preempt count `m_count`. -/
structure RwSemaphore where
  wait_list : List RwsemWaiter
  m_count : Nat
deriving DecidableEq

/-- RWSEM_MAX_PREEMPT_ALLOWED from rwsem.h: the anti-starvation cap. -/
def RWSEM_MAX_PREEMPT_ALLOWED : Nat := 3000

/-- Modelled from the spec: the baseline priority DEFAULT_PRIO below which a
task counts as elevated. The constant itself lives in the external scheduler
headers; only comparisons against it matter here. -/
def DEFAULT_PRIO : Int := 120

/-- The `list_for_each` scan of `rwsem_list_add_per_prio`: walking head to
tail, at the first waiter whose priority is greater (less urgent) than the
incoming waiter's, splice the incoming waiter immediately before it.
Returns `some (new list, whether the splice point was the original head)`,
or `none` when no queued waiter is strictly less urgent. -/
def prioScanInsert (waiter_in : RwsemWaiter) :
    List RwsemWaiter → Option (List RwsemWaiter × Bool)
  | [] => none
  | w :: rest =>
    if waiter_in.prio < w.prio then
      some (waiter_in :: w :: rest, true)
    else
      match prioScanInsert waiter_in rest with
      | some (l, _) => some (w :: l, false)
      | none => none

/-- `rwsem_list_add_per_prio` from rwsem.h under CONFIG_RWSEM_PRIO_AWARE:
returns the updated semaphore and the boolean the C function returns
(`&waiter_in->list == head->next`, i.e. the waiter now heads the list). -/
def rwsem_list_add_per_prio (waiter_in : RwsemWaiter) (sem : RwSemaphore) :
    RwSemaphore × Bool :=
  if sem.wait_list = [] then
    ({ wait_list := sem.wait_list ++ [waiter_in], m_count := 0 }, true)
  else if waiter_in.prio < DEFAULT_PRIO ∧ sem.m_count < RWSEM_MAX_PREEMPT_ALLOWED then
    match prioScanInsert waiter_in sem.wait_list with
    | some (l, atFront) => ({ wait_list := l, m_count := sem.m_count + 1 }, atFront)
    | none => ({ wait_list := sem.wait_list ++ [waiter_in], m_count := sem.m_count }, false)
  else
    ({ wait_list := sem.wait_list ++ [waiter_in], m_count := sem.m_count }, false)

/-- `rwsem_list_add_per_prio` from rwsem.h without CONFIG_RWSEM_PRIO_AWARE:
a plain tail append that always returns false. -/
def rwsem_list_add_per_prio_fifo (waiter_in : RwsemWaiter) (sem : RwSemaphore) :
    RwSemaphore × Bool :=
  ({ wait_list := sem.wait_list ++ [waiter_in], m_count := sem.m_count }, false)

/-- A semaphore whose wait list has just been drained (the state in which
the admission policy starts). -/
def initSem : RwSemaphore := { wait_list := [], m_count := 0 }

/-- A sequence of priority-aware insertions starting from an empty list. -/
def runPrioIns (ws : List RwsemWaiter) : RwSemaphore :=
  ws.foldl (fun sem w => (rwsem_list_add_per_prio w sem).1) initSem

/-- One step of an arrival trace: insert a waiter carrying the next arrival
index and the given priority, priority-aware. -/
def stepPrioTrace (p : RwSemaphore × Nat) (q : Int) : RwSemaphore × Nat :=
  ((rwsem_list_add_per_prio { id := p.2, prio := q } p.1).1, p.2 + 1)

/-- Run a whole arrival trace of priorities, priority-aware, from the empty
list; arrival indices are assigned 0, 1, 2, ... in order. -/
def runPrioTrace (ps : List Int) : RwSemaphore × Nat :=
  ps.foldl stepPrioTrace (initSem, 0)

/-- One step of an arrival trace under the FIFO-only configuration. -/
def stepFifoTrace (p : RwSemaphore × Nat) (q : Int) : RwSemaphore × Nat :=
  ((rwsem_list_add_per_prio_fifo { id := p.2, prio := q } p.1).1, p.2 + 1)

/-- Run a whole arrival trace of priorities under the FIFO-only
configuration, from the empty list. -/
def runFifoTrace (ps : List Int) : RwSemaphore × Nat :=
  ps.foldl stepFifoTrace (initSem, 0)

/-! Branch characterization of the priority-aware insertion. -/

/-- The scan finds no splice point exactly when no queued waiter is strictly
less urgent than the incoming one. -/
theorem prioScanInsert_eq_none_iff (w : RwsemWaiter) (l : List RwsemWaiter) :
    prioScanInsert w l = none ↔ ∀ y ∈ l, ¬ w.prio < y.prio := by
  induction l with
  | nil => simp [prioScanInsert]
  | cons x rest ih =>
    by_cases hx : w.prio < x.prio
    · simp [prioScanInsert, hx]
    · cases hs : prioScanInsert w rest with
      | none =>
        have hrest := ih.mp hs
        simp only [prioScanInsert, if_neg hx, hs]
        constructor
        · intro _ y hy
          rcases List.mem_cons.mp hy with h | h
          · exact h ▸ hx
          · exact hrest y h
        · intro _
          trivial
      | some p =>
        simp only [prioScanInsert, if_neg hx, hs]
        constructor
        · intro h
          exact absurd h (by simp)
        · intro h
          have hn : prioScanInsert w rest = none :=
            ih.mpr fun y hy => h y (by simp [hy])
          simp [hn] at hs

/-- A successful scan splits the list at the first strictly less urgent
waiter; the incoming waiter is spliced immediately before it, and the boolean
reports whether that splice point was the original head. -/
theorem prioScanInsert_eq_some (w : RwsemWaiter) (l l2 : List RwsemWaiter) (b : Bool)
    (h : prioScanInsert w l = some (l2, b)) :
    ∃ l0 x l1, l = l0 ++ x :: l1 ∧ (∀ y ∈ l0, ¬ w.prio < y.prio) ∧ w.prio < x.prio ∧
      l2 = l0 ++ w :: x :: l1 ∧ (b = true ↔ l0 = []) := by
  induction l generalizing l2 b with
  | nil => simp [prioScanInsert] at h
  | cons x rest ih =>
    by_cases hx : w.prio < x.prio
    · refine ⟨[], x, rest, by simp, by simp, hx, ?_, ?_⟩ <;>
        simp [prioScanInsert, hx] at h <;> simp [h.1.symm, h.2.symm]
    · cases hs : prioScanInsert w rest with
      | none => simp [prioScanInsert, hx, hs] at h
      | some p =>
        obtain ⟨lr, br⟩ := p
        simp only [prioScanInsert, if_neg hx, hs, Option.some.injEq, Prod.mk.injEq] at h
        obtain ⟨hl2, hb⟩ := h
        obtain ⟨l0, y, l1, hsplit, hall, hy, hlr, hbr⟩ := ih lr br hs
        refine ⟨x :: l0, y, l1, by simp [hsplit], ?_, hy, by simp [hl2.symm, hlr], ?_⟩
        · intro z hz
          rcases List.mem_cons.mp hz with hz | hz
          · simpa [hz] using hx
          · exact hall z hz
        · simp [hb.symm]

/-- Inserting into an empty wait list, priority-aware. -/
theorem add_per_prio_of_empty (w : RwsemWaiter) (sem : RwSemaphore)
    (h : sem.wait_list = []) :
    rwsem_list_add_per_prio w sem =
      ({ wait_list := sem.wait_list ++ [w], m_count := 0 }, true) := by
  simp [rwsem_list_add_per_prio, h]

/-- Inserting into a non-empty wait list when the scan succeeds. -/
theorem add_per_prio_of_scan (w : RwsemWaiter) (sem : RwSemaphore)
    (h : sem.wait_list ≠ [])
    (hg : w.prio < DEFAULT_PRIO ∧ sem.m_count < RWSEM_MAX_PREEMPT_ALLOWED)
    (l2 : List RwsemWaiter) (b : Bool)
    (hs : prioScanInsert w sem.wait_list = some (l2, b)) :
    rwsem_list_add_per_prio w sem =
      ({ wait_list := l2, m_count := sem.m_count + 1 }, b) := by
  simp [rwsem_list_add_per_prio, h, hg, hs]

/-- Inserting into a non-empty wait list when the scan falls through. -/
theorem add_per_prio_of_scan_none (w : RwsemWaiter) (sem : RwSemaphore)
    (h : sem.wait_list ≠ [])
    (hg : w.prio < DEFAULT_PRIO ∧ sem.m_count < RWSEM_MAX_PREEMPT_ALLOWED)
    (hs : prioScanInsert w sem.wait_list = none) :
    rwsem_list_add_per_prio w sem =
      ({ wait_list := sem.wait_list ++ [w], m_count := sem.m_count }, false) := by
  simp [rwsem_list_add_per_prio, h, hg, hs]

/-- Inserting into a non-empty wait list when the waiter is not elevated or
the budget is at the cap. -/
theorem add_per_prio_of_guard_false (w : RwsemWaiter) (sem : RwSemaphore)
    (h : sem.wait_list ≠ [])
    (hg : ¬(w.prio < DEFAULT_PRIO ∧ sem.m_count < RWSEM_MAX_PREEMPT_ALLOWED)) :
    rwsem_list_add_per_prio w sem =
      ({ wait_list := sem.wait_list ++ [w], m_count := sem.m_count }, false) := by
  simp [rwsem_list_add_per_prio, h, hg]

/-! Invariants of wait lists built by the priority-aware policy. -/

/-- No waiter that is elevated (priority strictly below the baseline) has a
strictly less urgent waiter anywhere ahead of it. The priority-aware policy
maintains this as long as the preempt budget is below the cap. -/
def NoElevatedInversion (l : List RwsemWaiter) : Prop :=
  l.Pairwise fun a b => b.prio < DEFAULT_PRIO → a.prio ≤ b.prio

/-- A waiter sits ahead of one that arrived no later only when it is strictly
more urgent; in particular arrival order is kept inside each priority tier. -/
def ArrivalSorted (l : List RwsemWaiter) : Prop :=
  l.Pairwise fun a b => b.id ≤ a.id → a.prio < b.prio

/-- The inductive invariant of the priority-aware policy on traces whose
first n arrival indices have been handed out. -/
def PrioInv (sem : RwSemaphore) (n : Nat) : Prop :=
  (∀ a ∈ sem.wait_list, a.id < n) ∧
  (sem.m_count < RWSEM_MAX_PREEMPT_ALLOWED → NoElevatedInversion sem.wait_list) ∧
  ArrivalSorted sem.wait_list

/-- Splicing an elevated waiter before the first strictly less urgent entry
preserves NoElevatedInversion. -/
theorem noElevatedInversion_splice (l0 l1 : List RwsemWaiter) (x w : RwsemWaiter)
    (hP : NoElevatedInversion (l0 ++ x :: l1))
    (hl0 : ∀ y ∈ l0, ¬ w.prio < y.prio)
    (hx : w.prio < x.prio) :
    NoElevatedInversion (l0 ++ w :: x :: l1) := by
  unfold NoElevatedInversion at hP ⊢
  rw [List.pairwise_append] at hP
  obtain ⟨h0, hcons, hcross⟩ := hP
  rw [List.pairwise_cons] at hcons
  obtain ⟨hxall, h1⟩ := hcons
  rw [List.pairwise_append]
  refine ⟨h0, ?_, ?_⟩
  · rw [List.pairwise_cons]
    constructor
    · intro b hb
      rcases List.mem_cons.mp hb with hb | hb
      · intro _
        exact hb ▸ le_of_lt hx
      · intro hbe
        exact le_trans (le_of_lt hx) (hxall b hb hbe)
    · rw [List.pairwise_cons]
      exact ⟨hxall, h1⟩
  · intro a ha b hb
    rcases List.mem_cons.mp hb with hb | hb
    · intro _
      exact hb ▸ not_lt.mp (hl0 a ha)
    · exact hcross a ha b hb

/-- Splicing an elevated waiter before the first strictly less urgent entry
preserves ArrivalSorted, provided the old list had no elevated inversion and
the new waiter carries a fresh, maximal arrival index. -/
theorem arrivalSorted_splice (l0 l1 : List RwsemWaiter) (x w : RwsemWaiter) (n : Nat)
    (hJ : ArrivalSorted (l0 ++ x :: l1))
    (hP : NoElevatedInversion (l0 ++ x :: l1))
    (hids : ∀ a ∈ l0 ++ x :: l1, a.id < n)
    (hwid : w.id = n)
    (hw : w.prio < DEFAULT_PRIO)
    (hx : w.prio < x.prio) :
    ArrivalSorted (l0 ++ w :: x :: l1) := by
  unfold ArrivalSorted at hJ ⊢
  rw [List.pairwise_append] at hJ
  obtain ⟨hJ0, hJcons, hJcross⟩ := hJ
  unfold NoElevatedInversion at hP
  rw [List.pairwise_append, List.pairwise_cons] at hP
  obtain ⟨-, ⟨hPx, -⟩, -⟩ := hP
  rw [List.pairwise_append]
  refine ⟨hJ0, ?_, ?_⟩
  · rw [List.pairwise_cons]
    constructor
    · intro b hb _
      rcases List.mem_cons.mp hb with hb | hb
      · exact hb ▸ hx
      · by_cases hbe : b.prio < DEFAULT_PRIO
        · exact lt_of_lt_of_le hx (hPx b hb hbe)
        · exact lt_of_lt_of_le hw (not_lt.mp hbe)
    · exact hJcons
  · intro a ha b hb
    rcases List.mem_cons.mp hb with hb | hb
    · intro hba
      have h1 : a.id < n := hids a (List.mem_append_left _ ha)
      have h2 : n ≤ a.id := hwid ▸ hb ▸ hba
      exact absurd h1 (not_lt.mpr h2)
    · exact hJcross a ha b hb

/-- Appending a waiter that preempts nobody preserves NoElevatedInversion. -/
theorem noElevatedInversion_append (l : List RwsemWaiter) (w : RwsemWaiter)
    (hP : NoElevatedInversion l)
    (h : w.prio < DEFAULT_PRIO → ∀ y ∈ l, ¬ w.prio < y.prio) :
    NoElevatedInversion (l ++ [w]) := by
  unfold NoElevatedInversion at hP ⊢
  rw [List.pairwise_append]
  refine ⟨hP, List.pairwise_singleton _ _, ?_⟩
  intro a ha b hb
  rcases List.mem_singleton.mp hb with hb
  intro hbe
  exact hb ▸ not_lt.mp (h (hb ▸ hbe) a ha)

/-- Appending a waiter with a fresh, maximal arrival index preserves
ArrivalSorted. -/
theorem arrivalSorted_append (l : List RwsemWaiter) (w : RwsemWaiter) (n : Nat)
    (hJ : ArrivalSorted l) (hids : ∀ a ∈ l, a.id < n) (hwid : w.id = n) :
    ArrivalSorted (l ++ [w]) := by
  unfold ArrivalSorted at hJ ⊢
  rw [List.pairwise_append]
  refine ⟨hJ, List.pairwise_singleton _ _, ?_⟩
  intro a ha b hb hba
  rcases List.mem_singleton.mp hb with hb
  have h1 : a.id < n := hids a ha
  have h2 : n ≤ a.id := hwid ▸ hb ▸ hba
  exact absurd h1 (not_lt.mpr h2)

/-- One priority-aware insertion of a waiter carrying the next arrival index
preserves the invariant. -/
theorem prioInv_step (sem : RwSemaphore) (n : Nat) (w : RwsemWaiter)
    (hInv : PrioInv sem n) (hwid : w.id = n) :
    PrioInv (rwsem_list_add_per_prio w sem).1 (n + 1) := by
  obtain ⟨hids, hNoInv, hArr⟩ := hInv
  by_cases hemp : sem.wait_list = []
  · rw [add_per_prio_of_empty w sem hemp]
    refine ⟨?_, ?_, ?_⟩
    · intro a ha
      simp only [hemp, List.nil_append, List.mem_singleton] at ha
      subst ha
      omega
    · intro _
      simp only [hemp, List.nil_append]
      exact List.pairwise_singleton _ _
    · simp only [ArrivalSorted, hemp, List.nil_append]
      exact List.pairwise_singleton _ _
  · by_cases hg : w.prio < DEFAULT_PRIO ∧ sem.m_count < RWSEM_MAX_PREEMPT_ALLOWED
    · cases hs : prioScanInsert w sem.wait_list with
      | some p =>
        obtain ⟨l2, b⟩ := p
        rw [add_per_prio_of_scan w sem hemp hg l2 b hs]
        obtain ⟨l0, x, l1, hsplit, hall, hxlt, hl2, -⟩ :=
          prioScanInsert_eq_some w sem.wait_list l2 b hs
        have hP : NoElevatedInversion sem.wait_list := hNoInv hg.2
        refine ⟨?_, ?_, ?_⟩
        · intro a ha
          rw [hl2] at ha
          rcases List.mem_append.mp ha with ha | ha
          · have := hids a (hsplit ▸ List.mem_append_left _ ha)
            omega
          · rcases List.mem_cons.mp ha with ha | ha
            · subst ha
              omega
            · have := hids a (hsplit ▸ List.mem_append_right _ ha)
              omega
        · intro _
          rw [hl2]
          exact noElevatedInversion_splice l0 l1 x w (hsplit ▸ hP) hall hxlt
        · rw [hl2]
          exact arrivalSorted_splice l0 l1 x w n (hsplit ▸ hArr) (hsplit ▸ hP)
            (hsplit ▸ hids) hwid hg.1 hxlt
      | none =>
        rw [add_per_prio_of_scan_none w sem hemp hg hs]
        have hnone := (prioScanInsert_eq_none_iff w sem.wait_list).mp hs
        refine ⟨?_, ?_, ?_⟩
        · intro a ha
          rcases List.mem_append.mp ha with ha | ha
          · have := hids a ha
            omega
          · rcases List.mem_singleton.mp ha with ha
            subst ha
            omega
        · intro hlt
          exact noElevatedInversion_append sem.wait_list w (hNoInv hlt)
            fun _ => hnone
        · exact arrivalSorted_append sem.wait_list w n hArr hids hwid
    · rw [add_per_prio_of_guard_false w sem hemp hg]
      refine ⟨?_, ?_, ?_⟩
      · intro a ha
        rcases List.mem_append.mp ha with ha | ha
        · have := hids a ha
          omega
        · rcases List.mem_singleton.mp ha with ha
          subst ha
          omega
      · intro hlt
        have hnel : ¬ w.prio < DEFAULT_PRIO := fun he => hg ⟨he, hlt⟩
        exact noElevatedInversion_append sem.wait_list w (hNoInv hlt)
          fun he => absurd he hnel
      · exact arrivalSorted_append sem.wait_list w n hArr hids hwid

/-- The invariant holds along any priority-aware arrival trace. -/
theorem prioInv_foldl (ps : List Int) (p : RwSemaphore × Nat)
    (h : PrioInv p.1 p.2) :
    PrioInv (ps.foldl stepPrioTrace p).1 (ps.foldl stepPrioTrace p).2 := by
  induction ps generalizing p with
  | nil => exact h
  | cons q rest ih =>
    rw [List.foldl_cons]
    exact ih (stepPrioTrace p q) (prioInv_step p.1 p.2 { id := p.2, prio := q } h rfl)

/-- The invariant at the end of any priority-aware arrival trace. -/
theorem runPrioTrace_inv (ps : List Int) :
    PrioInv (runPrioTrace ps).1 (runPrioTrace ps).2 := by
  unfold runPrioTrace
  refine prioInv_foldl ps (initSem, 0) ?_
  refine ⟨?_, ?_, ?_⟩ <;> simp [initSem, NoElevatedInversion, ArrivalSorted]

/-! Budget bookkeeping of the priority-aware insertion. -/

/-- One priority-aware insertion keeps the preempt count at or below the cap. -/
theorem add_per_prio_m_count_le (w : RwsemWaiter) (sem : RwSemaphore)
    (h : sem.m_count ≤ RWSEM_MAX_PREEMPT_ALLOWED) :
    (rwsem_list_add_per_prio w sem).1.m_count ≤ RWSEM_MAX_PREEMPT_ALLOWED := by
  by_cases hemp : sem.wait_list = []
  · rw [add_per_prio_of_empty w sem hemp]
    exact Nat.zero_le _
  · by_cases hg : w.prio < DEFAULT_PRIO ∧ sem.m_count < RWSEM_MAX_PREEMPT_ALLOWED
    · cases hs : prioScanInsert w sem.wait_list with
      | some p =>
        obtain ⟨l2, b⟩ := p
        rw [add_per_prio_of_scan w sem hemp hg l2 b hs]
        exact hg.2
      | none =>
        rw [add_per_prio_of_scan_none w sem hemp hg hs]
        exact h
    · rw [add_per_prio_of_guard_false w sem hemp hg]
      exact h

/-- The preempt count stays at or below the cap along any fold of
priority-aware insertions. -/
theorem foldl_prio_m_count_le (ws : List RwsemWaiter) (sem : RwSemaphore)
    (h : sem.m_count ≤ RWSEM_MAX_PREEMPT_ALLOWED) :
    (ws.foldl (fun s w => (rwsem_list_add_per_prio w s).1) sem).m_count ≤
      RWSEM_MAX_PREEMPT_ALLOWED := by
  induction ws generalizing sem with
  | nil => exact h
  | cons w rest ih =>
    rw [List.foldl_cons]
    exact ih _ (add_per_prio_m_count_le w sem h)

/-- On a non-empty list the preempt count never drops: it is unchanged, or it
grows by exactly one, and then only because the new waiter was spliced in
front of an existing, strictly less urgent waiter. -/
theorem add_per_prio_budget_cases (w : RwsemWaiter) (sem : RwSemaphore)
    (hne : sem.wait_list ≠ []) :
    sem.m_count ≤ (rwsem_list_add_per_prio w sem).1.m_count ∧
    ((rwsem_list_add_per_prio w sem).1.m_count = sem.m_count ∨
      (rwsem_list_add_per_prio w sem).1.m_count = sem.m_count + 1) ∧
    ((rwsem_list_add_per_prio w sem).1.m_count = sem.m_count + 1 →
      ∃ l0 x l1, sem.wait_list = l0 ++ x :: l1 ∧ w.prio < x.prio ∧
        (rwsem_list_add_per_prio w sem).1.wait_list = l0 ++ w :: x :: l1) := by
  by_cases hg : w.prio < DEFAULT_PRIO ∧ sem.m_count < RWSEM_MAX_PREEMPT_ALLOWED
  · cases hs : prioScanInsert w sem.wait_list with
    | some p =>
      obtain ⟨l2, b⟩ := p
      rw [add_per_prio_of_scan w sem hne hg l2 b hs]
      obtain ⟨l0, x, l1, hsplit, -, hxlt, hl2, -⟩ :=
        prioScanInsert_eq_some w sem.wait_list l2 b hs
      exact ⟨Nat.le_succ _, Or.inr rfl, fun _ => ⟨l0, x, l1, hsplit, hxlt, hl2⟩⟩
    | none =>
      rw [add_per_prio_of_scan_none w sem hne hg hs]
      refine ⟨le_refl _, Or.inl rfl, fun hc => ?_⟩
      simp at hc
  · rw [add_per_prio_of_guard_false w sem hne hg]
    refine ⟨le_refl _, Or.inl rfl, fun hc => ?_⟩
    simp at hc

/-- Along a FIFO-only arrival trace every queued id is below the arrival
counter and the list is in strict arrival order. -/
theorem fifoTrace_inv (ps : List Int) (p : RwSemaphore × Nat)
    (h : (∀ a ∈ p.1.wait_list, a.id < p.2) ∧
      (p.1.wait_list.Pairwise fun a b => a.id < b.id)) :
    (∀ a ∈ (ps.foldl stepFifoTrace p).1.wait_list, a.id < (ps.foldl stepFifoTrace p).2) ∧
    ((ps.foldl stepFifoTrace p).1.wait_list.Pairwise fun a b => a.id < b.id) := by
  induction ps generalizing p with
  | nil => exact h
  | cons q rest ih =>
    rw [List.foldl_cons]
    refine ih _ ⟨?_, ?_⟩
    · intro a ha
      simp only [stepFifoTrace, rwsem_list_add_per_prio_fifo] at ha ⊢
      rcases List.mem_append.mp ha with ha | ha
      · have := h.1 a ha
        omega
      · rcases List.mem_singleton.mp ha with ha
        subst ha
        exact Nat.lt_succ_self _
    · simp only [stepFifoTrace, rwsem_list_add_per_prio_fifo]
      rw [List.pairwise_append]
      refine ⟨h.2, List.pairwise_singleton _ _, ?_⟩
      intro a ha b hb
      rcases List.mem_singleton.mp hb with hb
      subst hb
      exact h.1 a ha

/-- Once the owner word holds RWSEM_READER_OWNED, any number of further
rwsem_set_reader_owned calls change nothing. -/
theorem iterateSetReaderOwned_fixed (n : Nat) (s : OwnerState)
    (h : s.owner = RWSEM_READER_OWNED) :
    iterateSetReaderOwned n s = s := by
  induction n with
  | zero => rfl
  | succ m ih =>
    have hfix : rwsem_set_reader_owned s = s := by
      simp [rwsem_set_reader_owned, h]
    show iterateSetReaderOwned m (rwsem_set_reader_owned s) = s
    rw [hfix]
    exact ih

/-! The claims. -/

/-- C8: isSpinnable is true for the Free owner value and for every Owned(x)
value, and false for the AnonymousReaderOrOwner value. -/
theorem owner_spinnable_cases :
    is_rwsem_owner_spinnable (encodeOwner OwnerSlot.Free) = true ∧
    (∀ tid, is_rwsem_owner_spinnable (encodeOwner (OwnerSlot.Owned tid)) = true) ∧
    is_rwsem_owner_spinnable (encodeOwner OwnerSlot.AnonymousReaderOrOwner) = false := by
  refine ⟨by decide, ?_, by decide⟩
  intro tid
  simp [is_rwsem_owner_spinnable, encodeOwner, RWSEM_ANONYMOUSLY_OWNED,
    Nat.and_one_is_mod, Nat.mul_mod_right]

/-- C9: when the owner slot already holds the AnonymousReaderOrOwner value,
rwsem_set_reader_owned performs no store and leaves the state unchanged; and
any repeated sequence of calls starting from a non-anonymous state performs
at most one store in total. -/
theorem set_reader_owned_store_elision (s : OwnerState) (n : Nat) :
    (s.owner = encodeOwner OwnerSlot.AnonymousReaderOrOwner →
      rwsem_set_reader_owned s = s) ∧
    (rwsem_has_anonymous_owner s.owner = false →
      (iterateSetReaderOwned n s).stores ≤ s.stores + 1) := by
  constructor
  · intro h
    simp [rwsem_set_reader_owned, h, encodeOwner]
  · intro h
    simp only [rwsem_has_anonymous_owner, RWSEM_ANONYMOUSLY_OWNED,
      Nat.and_one_is_mod, bne_eq_false_iff_eq] at h
    have hne : s.owner ≠ RWSEM_READER_OWNED := by
      simp only [RWSEM_READER_OWNED, RWSEM_ANONYMOUSLY_OWNED]
      omega
    cases n with
    | zero => exact Nat.le_succ_of_le (le_refl _)
    | succ m =>
      have hstep : rwsem_set_reader_owned s =
          { owner := RWSEM_READER_OWNED, stores := s.stores + 1 } := by
        simp [rwsem_set_reader_owned, hne]
      show (iterateSetReaderOwned m (rwsem_set_reader_owned s)).stores ≤ s.stores + 1
      rw [hstep, iterateSetReaderOwned_fixed m _ rfl]

/-- C10: the FIFO-only insertion leaves the preempt budget untouched, for
every semaphore state. -/
theorem fifo_insert_preserves_budget (w : RwsemWaiter) (sem : RwSemaphore) :
    (rwsem_list_add_per_prio_fifo w sem).1.m_count = sem.m_count := rfl

/-- C2 counterexample: under the FIFO-only policy, inserting into the empty
list returns false although the list was empty immediately before the call,
so the claimed equivalence fails at this input. -/
theorem fifo_empty_insert_returns_false :
    ¬ (((rwsem_list_add_per_prio_fifo { id := 0, prio := 120 } initSem).2 = true) ↔
      initSem.wait_list = []) := by
  decide

/-- C2 amended: under the FIFO-only policy, insert appends the waiter to the
tail of the wait list and always returns false, whether or not the list was
empty immediately before the call. -/
theorem fifo_insert_appends_returns_false (w : RwsemWaiter) (sem : RwSemaphore) :
    (rwsem_list_add_per_prio_fifo w sem).1.wait_list = sem.wait_list ++ [w] ∧
    (rwsem_list_add_per_prio_fifo w sem).2 = false :=
  ⟨rfl, rfl⟩

/-- C6: a priority-aware insertion into an empty wait list appends the waiter
as the sole entry, resets the budget to 0 and returns true, whatever the
waiter's priority and the budget beforehand. -/
theorem prio_insert_empty_resets (w : RwsemWaiter) (sem : RwSemaphore)
    (h : sem.wait_list = []) :
    rwsem_list_add_per_prio w sem = ({ wait_list := [w], m_count := 0 }, true) := by
  rw [add_per_prio_of_empty w sem h, h]
  rfl

/-- C6 witness: inserting a low-urgency waiter into an empty list with a
stale nonzero budget yields the singleton list, budget 0 and true. -/
theorem prio_insert_empty_resets_witness :
    rwsem_list_add_per_prio { id := 0, prio := 300 } { wait_list := [], m_count := 5 } =
      ({ wait_list := [{ id := 0, prio := 300 }], m_count := 0 }, true) :=
  prio_insert_empty_resets _ _ rfl

/-- C1 counterexample: in the FIFO-only configuration, inserting into the
empty list makes the waiter the first entry of the wait list, yet insert
returns false; the returned boolean is not equivalent to heading the list. -/
theorem fifo_front_iff_fails :
    ¬ (((rwsem_list_add_per_prio_fifo { id := 0, prio := 120 } initSem).2 = true) ↔
      (rwsem_list_add_per_prio_fifo { id := 0, prio := 120 } initSem).1.wait_list.head? =
        some { id := 0, prio := 120 }) := by
  decide

/-- C1 amended: in the priority-aware configuration, for a waiter not already
linked into the list (no queued waiter shares its identity), insert returns
true exactly when the waiter is the first entry of the wait list immediately
after the call; in the FIFO-only configuration insert always returns false,
even when the waiter becomes the first entry. -/
theorem insert_true_iff_head (sem : RwSemaphore) (w : RwsemWaiter)
    (h : ∀ a ∈ sem.wait_list, a.id ≠ w.id) :
    ((rwsem_list_add_per_prio w sem).2 = true ↔
      (rwsem_list_add_per_prio w sem).1.wait_list.head? = some w) ∧
    (rwsem_list_add_per_prio_fifo w sem).2 = false := by
  refine ⟨?_, rfl⟩
  by_cases hemp : sem.wait_list = []
  · rw [add_per_prio_of_empty w sem hemp]
    simp [hemp]
  · by_cases hg : w.prio < DEFAULT_PRIO ∧ sem.m_count < RWSEM_MAX_PREEMPT_ALLOWED
    · cases hs : prioScanInsert w sem.wait_list with
      | some p =>
        obtain ⟨l2, b⟩ := p
        rw [add_per_prio_of_scan w sem hemp hg l2 b hs]
        obtain ⟨l0, x, l1, hsplit, -, -, hl2, hbiff⟩ :=
          prioScanInsert_eq_some w sem.wait_list l2 b hs
        subst hl2
        cases l0 with
        | nil =>
          have hb : b = true := hbiff.mpr rfl
          simp [hb]
        | cons y l0r =>
          have hb : b = false := by
            cases b with
            | false => rfl
            | true => exact absurd (hbiff.mp rfl) (List.cons_ne_nil y l0r)
          have hy : y ∈ sem.wait_list := by
            rw [hsplit]
            simp
          have hyw : y ≠ w := fun he => h y hy (congrArg RwsemWaiter.id he)
          simp [hb, hyw]
      | none =>
        rw [add_per_prio_of_scan_none w sem hemp hg hs]
        cases hl : sem.wait_list with
        | nil => exact absurd hl hemp
        | cons y rest =>
          have hy : y ∈ sem.wait_list := by
            rw [hl]
            simp
          have hyw : y ≠ w := fun he => h y hy (congrArg RwsemWaiter.id he)
          simp [hl, hyw]
    · rw [add_per_prio_of_guard_false w sem hemp hg]
      cases hl : sem.wait_list with
      | nil => exact absurd hl hemp
      | cons y rest =>
        have hy : y ∈ sem.wait_list := by
          rw [hl]
          simp
        have hyw : y ≠ w := fun he => h y hy (congrArg RwsemWaiter.id he)
        simp [hl, hyw]

/-- C1 witness: a fresh elevated waiter spliced before the lone queued waiter
heads the list and the insert reports true; the FIFO-only insert reports
false. -/
theorem insert_true_iff_head_witness :
    ((rwsem_list_add_per_prio { id := 1, prio := 110 }
        { wait_list := [{ id := 0, prio := 125 }], m_count := 0 }).2 = true ↔
      (rwsem_list_add_per_prio { id := 1, prio := 110 }
        { wait_list := [{ id := 0, prio := 125 }], m_count := 0 }).1.wait_list.head? =
        some { id := 1, prio := 110 }) ∧
    (rwsem_list_add_per_prio_fifo { id := 1, prio := 110 }
        { wait_list := [{ id := 0, prio := 125 }], m_count := 0 }).2 = false :=
  insert_true_iff_head _ _ (by decide)

/-- C3: priority-aware insertion of an elevated waiter into a non-empty list
with budget below the cap: either the waiter is spliced immediately before
the first strictly less urgent entry, the budget grows by exactly one, and
true is returned iff that insertion point was the original head; or no entry
is strictly less urgent, the waiter is appended at the tail, the budget is
unchanged, and false is returned. -/
theorem prio_insert_elevated_spec (w : RwsemWaiter) (sem : RwSemaphore)
    (hne : sem.wait_list ≠ [])
    (hel : w.prio < DEFAULT_PRIO)
    (hbud : sem.m_count < RWSEM_MAX_PREEMPT_ALLOWED) :
    (∃ l0 x l1, sem.wait_list = l0 ++ x :: l1 ∧
      (∀ y ∈ l0, ¬ w.prio < y.prio) ∧ w.prio < x.prio ∧
      (rwsem_list_add_per_prio w sem).1.wait_list = l0 ++ w :: x :: l1 ∧
      (rwsem_list_add_per_prio w sem).1.m_count = sem.m_count + 1 ∧
      ((rwsem_list_add_per_prio w sem).2 = true ↔ l0 = [])) ∨
    ((∀ y ∈ sem.wait_list, ¬ w.prio < y.prio) ∧
      (rwsem_list_add_per_prio w sem).1.wait_list = sem.wait_list ++ [w] ∧
      (rwsem_list_add_per_prio w sem).1.m_count = sem.m_count ∧
      (rwsem_list_add_per_prio w sem).2 = false) := by
  cases hs : prioScanInsert w sem.wait_list with
  | some p =>
    obtain ⟨l2, b⟩ := p
    rw [add_per_prio_of_scan w sem hne ⟨hel, hbud⟩ l2 b hs]
    obtain ⟨l0, x, l1, hsplit, hall, hxlt, hl2, hbiff⟩ :=
      prioScanInsert_eq_some w sem.wait_list l2 b hs
    exact Or.inl ⟨l0, x, l1, hsplit, hall, hxlt, by simpa using hl2, rfl, hbiff⟩
  | none =>
    rw [add_per_prio_of_scan_none w sem hne ⟨hel, hbud⟩ hs]
    exact Or.inr ⟨(prioScanInsert_eq_none_iff w sem.wait_list).mp hs, rfl, rfl, rfl⟩

/-- C3 witness, the spec's Scenario A: inserting an elevated waiter before
the lone normal-priority waiter splices it at the head, moves the budget from
0 to 1 and returns true. -/
theorem prio_insert_elevated_spec_witness :
    (∃ l0 x l1,
      ({ wait_list := [{ id := 0, prio := 125 }], m_count := 0 } : RwSemaphore).wait_list =
        l0 ++ x :: l1 ∧
      (∀ y ∈ l0, ¬ ({ id := 1, prio := 110 } : RwsemWaiter).prio < y.prio) ∧
      ({ id := 1, prio := 110 } : RwsemWaiter).prio < x.prio ∧
      (rwsem_list_add_per_prio { id := 1, prio := 110 }
        { wait_list := [{ id := 0, prio := 125 }], m_count := 0 }).1.wait_list =
        l0 ++ { id := 1, prio := 110 } :: x :: l1 ∧
      (rwsem_list_add_per_prio { id := 1, prio := 110 }
        { wait_list := [{ id := 0, prio := 125 }], m_count := 0 }).1.m_count = 0 + 1 ∧
      ((rwsem_list_add_per_prio { id := 1, prio := 110 }
        { wait_list := [{ id := 0, prio := 125 }], m_count := 0 }).2 = true ↔ l0 = [])) ∨
    ((∀ y ∈ ({ wait_list := [{ id := 0, prio := 125 }], m_count := 0 } : RwSemaphore).wait_list,
        ¬ ({ id := 1, prio := 110 } : RwsemWaiter).prio < y.prio) ∧
      (rwsem_list_add_per_prio { id := 1, prio := 110 }
        { wait_list := [{ id := 0, prio := 125 }], m_count := 0 }).1.wait_list =
        [{ id := 0, prio := 125 }] ++ [{ id := 1, prio := 110 }] ∧
      (rwsem_list_add_per_prio { id := 1, prio := 110 }
        { wait_list := [{ id := 0, prio := 125 }], m_count := 0 }).1.m_count = 0 ∧
      (rwsem_list_add_per_prio { id := 1, prio := 110 }
        { wait_list := [{ id := 0, prio := 125 }], m_count := 0 }).2 = false) :=
  prio_insert_elevated_spec { id := 1, prio := 110 }
    { wait_list := [{ id := 0, prio := 125 }], m_count := 0 }
    (by decide) (by decide) (by decide)

/-- C4: in every state reached by a sequence of priority-aware insertions the
preempt budget is at most the cap (it is a natural number, so at least 0);
the next insertion resets it to 0 exactly when the list is empty, and on a
non-empty list it never decreases and grows only by exactly one, and then
only because the new waiter was placed immediately before an existing,
strictly less urgent waiter. -/
theorem preempt_budget_invariant (ws : List RwsemWaiter) (w : RwsemWaiter) :
    (runPrioIns ws).m_count ≤ RWSEM_MAX_PREEMPT_ALLOWED ∧
    ((runPrioIns ws).wait_list = [] →
      (rwsem_list_add_per_prio w (runPrioIns ws)).1.m_count = 0) ∧
    ((runPrioIns ws).wait_list ≠ [] →
      (runPrioIns ws).m_count ≤ (rwsem_list_add_per_prio w (runPrioIns ws)).1.m_count ∧
      ((rwsem_list_add_per_prio w (runPrioIns ws)).1.m_count = (runPrioIns ws).m_count ∨
        (rwsem_list_add_per_prio w (runPrioIns ws)).1.m_count =
          (runPrioIns ws).m_count + 1) ∧
      ((rwsem_list_add_per_prio w (runPrioIns ws)).1.m_count =
          (runPrioIns ws).m_count + 1 →
        ∃ l0 x l1, (runPrioIns ws).wait_list = l0 ++ x :: l1 ∧ w.prio < x.prio ∧
          (rwsem_list_add_per_prio w (runPrioIns ws)).1.wait_list =
            l0 ++ w :: x :: l1)) := by
  refine ⟨foldl_prio_m_count_le ws initSem (Nat.zero_le _), ?_, ?_⟩
  · intro hemp
    rw [add_per_prio_of_empty w (runPrioIns ws) hemp]
  · intro hne
    exact add_per_prio_budget_cases w (runPrioIns ws) hne

/-- C5: along any priority-aware arrival trace from the empty list, whenever
waiter a sits ahead of waiter b although a arrived later, and the budget was
still below the cap at the moment a was inserted, a is not less urgent than
b. (The code in fact guarantees this even without the budget condition.) -/
theorem less_urgent_never_overtakes (ps : List Int) :
    ((runPrioTrace ps).1.wait_list).Pairwise fun a b =>
      b.id < a.id →
      (runPrioTrace (ps.take a.id)).1.m_count < RWSEM_MAX_PREEMPT_ALLOWED →
      ¬ b.prio < a.prio := by
  have h := (runPrioTrace_inv ps).2.2
  unfold ArrivalSorted at h
  refine h.imp ?_
  intro a b hab hba _
  have := hab (le_of_lt hba)
  omega

/-- C7: under both configurations, waiters of equal priority appear in the
final wait list in their arrival order. -/
theorem equal_priority_arrival_order (ps : List Int) :
    (((runPrioTrace ps).1.wait_list).Pairwise fun a b =>
      a.prio = b.prio → a.id < b.id) ∧
    (((runFifoTrace ps).1.wait_list).Pairwise fun a b =>
      a.prio = b.prio → a.id < b.id) := by
  constructor
  · have h := (runPrioTrace_inv ps).2.2
    unfold ArrivalSorted at h
    refine h.imp ?_
    intro a b hab heq
    by_contra hlt
    have := hab (by omega)
    omega
  · have h := (fifoTrace_inv ps (initSem, 0) (by simp [initSem])).2
    refine h.imp ?_
    intro a b hab _
    exact hab
